import Mathlib

/-!
Verification of the two class-name substitution scripts
(`update_editor_classes.py` and `update_viewer_classes.py`).

Each script reads one file into a string, applies an ordered list of
(pattern, replacement) pairs with `re.sub` — every pattern is a literal
string, so each application is leftmost non-overlapping global literal
substitution — and writes the result back.

Strings are modelled as `List Char`.  `subst` is the embedding of one
`re.sub pattern replacement content` call with a literal pattern: scan left
to right; wherever the pattern is a prefix of the remaining input, emit the
replacement and skip the pattern; otherwise copy one character.  Python's
`re.sub` with an empty pattern inserts the replacement before every
character and at the end; the empty-pattern branches below mirror that,
although all patterns in the scripts are nonempty.  The functions are
written with an explicit fuel argument (structural recursion) so that the
kernel can evaluate them; the fuel is always the input length.
-/

/-! ## Definitions -/

/-- One substitution rule: (pattern, replacement), both literal strings. -/
abbrev Rule := List Char × List Char

/-- Fueled worker for `subst`.  Fuel `s.length` is always enough. -/
def substFuel (p r : List Char) : Nat → List Char → List Char
  | _, [] => if p = [] then r else []
  | 0, _ :: _ => []
  | fuel + 1, a :: t =>
    if p = [] then r ++ a :: substFuel p r fuel t
    else if p.isPrefixOf (a :: t) then r ++ substFuel p r fuel ((a :: t).drop p.length)
    else a :: substFuel p r fuel t

/-- `re.sub pattern replacement s` for a literal pattern: replace every
leftmost non-overlapping occurrence of `p` in `s` by `r`. -/
def subst (p r s : List Char) : List Char := substFuel p r s.length s

/-- The `for pattern, replacement in replacements: content = re.sub(...)`
loop of both scripts: apply the rules one at a time, in list order, the
result of one rule becoming the input of the next. -/
def applyAll : List Rule → List Char → List Char
  | [], s => s
  | (p, r) :: rest, s => applyAll rest (subst p r s)

/-- Fueled worker for `countMatches`. -/
def countMatchesFuel (p : List Char) : Nat → List Char → Nat
  | _, [] => if p = [] then 1 else 0
  | 0, _ :: _ => 0
  | fuel + 1, a :: t =>
    if p = [] then 1 + countMatchesFuel p fuel t
    else if p.isPrefixOf (a :: t) then 1 + countMatchesFuel p fuel ((a :: t).drop p.length)
    else countMatchesFuel p fuel t

/-- The number of (leftmost, non-overlapping) matches `re.sub` replaces. -/
def countMatches (p s : List Char) : Nat := countMatchesFuel p s.length s

/-- Total number of substitutions a whole run performs, summed over the
sequential passes. -/
def totalMatches : List Rule → List Char → Nat
  | [], _ => 0
  | (p, r) :: rest, s => countMatches p s + totalMatches rest (subst p r s)

/-- Index of the leftmost occurrence of `p` in `s`, if any. -/
def firstOcc (p : List Char) : List Char → Option Nat
  | [] => if p = [] then some 0 else none
  | a :: t => if p.isPrefixOf (a :: t) then some 0 else (firstOcc p t).map (· + 1)

/-- The replacement list of `update_editor_classes.py` (lines 8-11). -/
def editorReplacements : List Rule :=
  [("className=\"timetable-grid\"".data, "className=\"editor-timetable-grid\"".data),
   ("className=\"subject-code\"".data, "className=\"editor-subject-code\"".data)]

/-- The replacement list of `update_viewer_classes.py` (lines 8-31).  Note
the `classroom-badge` pattern and replacement have no closing quote. -/
def viewerReplacements : List Rule :=
  [("className=\"empty-cell\"".data, "className=\"viewer-empty-cell\"".data),
   ("className=\"break-cell\"".data, "className=\"viewer-break-cell\"".data),
   ("className=\"lab-cell\"".data, "className=\"viewer-lab-cell\"".data),
   ("className=\"subject-code\"".data, "className=\"viewer-subject-code\"".data),
   ("className=\"teacher-name\"".data, "className=\"viewer-teacher-name\"".data),
   ("className=\"cell-content\"".data, "className=\"viewer-cell-content\"".data),
   ("className=\"cell-content-compact\"".data, "className=\"viewer-cell-content-compact\"".data),
   ("className=\"day-label\"".data, "className=\"viewer-day-label\"".data),
   ("className=\"time-header\"".data, "className=\"viewer-time-header\"".data),
   ("className=\"day-header\"".data, "className=\"viewer-day-header\"".data),
   ("className=\"fixed-badge\"".data, "className=\"viewer-fixed-badge\"".data),
   ("className=\"classroom-badge".data, "className=\"viewer-classroom-badge".data),
   ("className=\"break-icon\"".data, "className=\"viewer-break-icon\"".data),
   ("className=\"break-label\"".data, "className=\"viewer-break-label\"".data),
   ("className=\"time-range\"".data, "className=\"viewer-time-range\"".data),
   ("className=\"lab-content-horizontal\"".data, "className=\"viewer-lab-content-horizontal\"".data),
   ("className=\"batch-compact\"".data, "className=\"viewer-batch-compact\"".data),
   ("className=\"batch-name-compact\"".data, "className=\"viewer-batch-name-compact\"".data),
   ("className=\"batch-lab-compact\"".data, "className=\"viewer-batch-lab-compact\"".data),
   ("className=\"batch-room-compact\"".data, "className=\"viewer-batch-room-compact\"".data),
   ("className=\"batch-teacher-compact\"".data, "className=\"viewer-batch-teacher-compact\"".data),
   ("className=\"timetable-grid\"".data, "className=\"viewer-timetable-grid\"".data)]

/-- Decidable side conditions under which occurrences of `q` can neither
survive in nor be created by replacing `ru`'s pattern with `ru`'s
replacement: `q` is not inside the replacement, no nonempty suffix of the
replacement starts an occurrence of `q`, and no proper nonempty tail of `q`
can continue into (or over) a replacement copy. -/
def noRecreate (q : List Char) (ru : Rule) : Prop :=
  (¬ q <:+: ru.2) ∧
  (∀ v ∈ ru.2.tails, v ≠ [] → ¬ v <+: q) ∧
  (∀ v ∈ q.tails, v ≠ [] → v ≠ q → ¬ v <+: ru.2 ∧ ¬ ru.2 <+: v)

instance noRecreateDecidable (q : List Char) (ru : Rule) : Decidable (noRecreate q ru) := by
  unfold noRecreate
  infer_instance

/-- A rule list is good when every pattern is nonempty and no pattern, once
eliminated by its own rule, can be recreated by that rule or any later
rule. -/
def goodList : List Rule → Prop
  | [] => True
  | (p, r) :: rest =>
    p ≠ [] ∧ noRecreate p (p, r) ∧ (∀ ru ∈ rest, noRecreate p ru) ∧ goodList rest

instance goodListDecidable : (R : List Rule) → Decidable (goodList R)
  | [] => .isTrue trivial
  | (p, r) :: rest =>
    haveI : Decidable (goodList rest) := goodListDecidable rest
    show Decidable (p ≠ [] ∧ noRecreate p (p, r) ∧ (∀ ru ∈ rest, noRecreate p ru) ∧
      goodList rest) from inferInstance

/-- A pattern with no self-overlap: no proper nonempty suffix of `p` is a
prefix of `p`. -/
def borderFree (p : List Char) : Prop :=
  ∀ v ∈ p.tails, v ≠ [] → v ≠ p → ¬ v <+: p

instance borderFreeDecidable (p : List Char) : Decidable (borderFree p) := by
  unfold borderFree
  infer_instance

/-- Decidable conditions under which no occurrence of the pattern `p` can
overlap a fixed region `m` in any context: replacing with any `r` then
copies `m` verbatim. -/
def regionKeep (p m : List Char) : Prop :=
  (∀ v ∈ p.tails, v ≠ [] → v ≠ p → ¬ v <+: m) ∧
  (∀ v ∈ m.tails, v ≠ [] → ¬ p <+: v ∧ ¬ v <+: p) ∧
  ¬ (m <:+: p ∧ m ≠ p)

instance regionKeepDecidable (p m : List Char) : Decidable (regionKeep p m) := by
  unfold regionKeep
  infer_instance

/-- Fueled worker for `replaceNaive`. -/
def replaceNaiveFuel (p r : List Char) : Nat → List Char → List Char
  | _, [] => []
  | 0, _ :: _ => []
  | fuel + 1, a :: t =>
    if p = [] then a :: t
    else
      match firstOcc p (a :: t) with
      | none => a :: t
      | some i => (a :: t).take i ++ r ++ replaceNaiveFuel p r fuel ((a :: t).drop (i + p.length))

/-- Plain literal-substring global replacement, written independently of
`subst`: find the leftmost occurrence of `p`, splice in `r`, continue after
the match. -/
def replaceNaive (p r s : List Char) : List Char := replaceNaiveFuel p r s.length s

/-- The scripts' loop with `replaceNaive` in place of the regex call. -/
def applyAllNaive : List Rule → List Char → List Char
  | [], s => s
  | (p, r) :: rest, s => applyAllNaive rest (replaceNaive p r s)

/-- The first rule of the list whose (nonempty) pattern matches at the
current position. -/
def firstRule (rules : List Rule) (s : List Char) : Option Rule :=
  rules.find? (fun ru => !ru.1.isEmpty && ru.1.isPrefixOf s)

/-- Fueled worker for `substSim`. -/
def substSimFuel (rules : List Rule) : Nat → List Char → List Char
  | _, [] => []
  | 0, _ :: _ => []
  | fuel + 1, a :: t =>
    match firstRule rules (a :: t) with
    | some ru => ru.2 ++ substSimFuel rules fuel ((a :: t).drop ru.1.length)
    | none => a :: substSimFuel rules fuel t

/-- Applying all rules simultaneously, in one left-to-right pass over the
original blob: at each position the first matching rule (in list order)
fires, and later text inserted by a replacement is never rescanned. -/
def substSim (rules : List Rule) (s : List Char) : List Char :=
  substSimFuel rules s.length s

/-- The two failure classes of the spec's error taxonomy. -/
inductive RunError where
  | fileAccess : RunError
  | encoding : RunError
deriving DecidableEq

/-- State of the hardcoded target file when the script runs. -/
structure FileSys where
  present : Bool
  readable : Bool
  writable : Bool
  validUTF8 : Bool
  content : List Char
deriving DecidableEq

/-- What a successful run leaves behind: the written content and the printed
success acknowledgment. -/
structure RunOutput where
  written : List Char
  printedSuccess : Bool
deriving DecidableEq

/-- Modelled from the spec: the whole run of one script.  The substitution
step `applyAll` is the source's loop; the surrounding read / decode / write
steps and their failures (absent from the Python source, which installs no
handler) follow spec section 4.1 and section 7: read errors surface first,
then decoding, then the write, and only a fully successful run prints the
acknowledgment. -/
def runScript (R : List Rule) (fs : FileSys) : Except RunError RunOutput :=
  if fs.present = false ∨ fs.readable = false then Except.error RunError.fileAccess
  else if fs.validUTF8 = false then Except.error RunError.encoding
  else if fs.writable = false then Except.error RunError.fileAccess
  else Except.ok ⟨applyAll R fs.content, true⟩

/-- The regular-expression metacharacters of Python's `re` syntax. -/
def regexMetachars : List Char :=
  ['.', '^', '$', '*', '+', '?', '\x7b', '\x7d', '[', ']', '\\', '|', '(', ')']

instance exceptDecidableEq {ε α : Type} [DecidableEq ε] [DecidableEq α] :
    DecidableEq (Except ε α) := fun a b =>
  match a, b with
  | .error e₁, .error e₂ =>
    if h : e₁ = e₂ then .isTrue (by rw [h]) else .isFalse (by
      intro hc
      injection hc
      contradiction)
  | .ok v₁, .ok v₂ =>
    if h : v₁ = v₂ then .isTrue (by rw [h]) else .isFalse (by
      intro hc
      injection hc
      contradiction)
  | .error _, .ok _ => .isFalse (fun hc => Except.noConfusion hc)
  | .ok _, .error _ => .isFalse (fun hc => Except.noConfusion hc)

/-! ## Theorems -/

theorem substFuel_congr (p r : List Char) :
    ∀ f₁ f₂ s, s.length ≤ f₁ → s.length ≤ f₂ → substFuel p r f₁ s = substFuel p r f₂ s := by
  intro f₁
  induction f₁ with
  | zero =>
    intro f₂ s h₁ _
    have hs : s = [] := List.length_eq_zero.mp (Nat.le_zero.mp h₁)
    subst hs
    cases f₂ <;> rfl
  | succ f ih =>
    intro f₂ s h₁ h₂
    cases s with
    | nil => cases f₂ <;> rfl
    | cons a t =>
      cases f₂ with
      | zero => exact absurd h₂ (by simp)
      | succ g =>
        simp only [substFuel]
        by_cases hp : p = []
        · subst hp
          simp only [if_pos rfl]
          have := ih g t (Nat.le_of_succ_le_succ h₁) (Nat.le_of_succ_le_succ h₂)
          simp [this]
        · simp only [if_neg hp]
          by_cases hpre : p.isPrefixOf (a :: t)
          · simp only [if_pos hpre]
            have hd : ((a :: t).drop p.length).length ≤ t.length := by
              have hplen : 0 < p.length := List.length_pos.mpr hp
              simp only [List.length_drop, List.length_cons]
              omega
            have := ih g ((a :: t).drop p.length)
              (le_trans hd (Nat.le_of_succ_le_succ h₁))
              (le_trans hd (Nat.le_of_succ_le_succ h₂))
            simp [this]
          · simp only [if_neg hpre]
            have := ih g t (Nat.le_of_succ_le_succ h₁) (Nat.le_of_succ_le_succ h₂)
            simp [this]

theorem subst_nil (p r : List Char) : subst p r [] = if p = [] then r else [] := rfl

theorem subst_nil_of_ne (p r : List Char) (hp : p ≠ []) : subst p r [] = [] := by
  simp [subst_nil, hp]

theorem subst_empty_cons (r : List Char) (a : Char) (t : List Char) :
    subst [] r (a :: t) = r ++ a :: subst [] r t := by
  simp only [subst, List.length_cons, substFuel]
  rfl

theorem subst_match (p r : List Char) (a : Char) (t : List Char)
    (hp : p ≠ []) (h : p.isPrefixOf (a :: t)) :
    subst p r (a :: t) = r ++ subst p r ((a :: t).drop p.length) := by
  have hd : ((a :: t).drop p.length).length ≤ t.length := by
    have hplen : 0 < p.length := List.length_pos.mpr hp
    simp only [List.length_drop, List.length_cons]
    omega
  simp only [subst, List.length_cons, substFuel, if_neg hp, if_pos h]
  congr 1
  exact substFuel_congr p r t.length ((a :: t).drop p.length).length _ hd le_rfl

theorem subst_nomatch (p r : List Char) (a : Char) (t : List Char)
    (h : ¬ p.isPrefixOf (a :: t)) :
    subst p r (a :: t) = a :: subst p r t := by
    have hp : p ≠ [] := by
      rintro rfl
      exact h (by simp [List.isPrefixOf])
    simp only [subst, List.length_cons, substFuel, if_neg hp, if_neg h]

theorem prefix_append_drop_eq {α : Type} {p s : List α} (h : p <+: s) :
    p ++ s.drop p.length = s := by
  conv_rhs => rw [← List.take_append_drop p.length s]
  rw [← List.prefix_iff_eq_take.mp h]

theorem prefix_append_cases {α : Type} :
    ∀ (x : List α) (q y : List α), q <+: x ++ y →
      q <+: x ∨ (x <+: q ∧ q.drop x.length <+: y) := by
  intro x
  induction x with
  | nil => intro q y h; exact Or.inr ⟨List.nil_prefix, by simpa using h⟩
  | cons b x' ih =>
    intro q y h
    cases q with
    | nil => exact Or.inl List.nil_prefix
    | cons c q' =>
      rw [List.cons_append, List.cons_prefix_cons] at h
      obtain ⟨rfl, h'⟩ := h
      rcases ih q' y h' with h1 | ⟨h2, h3⟩
      · exact Or.inl (List.cons_prefix_cons.mpr ⟨rfl, h1⟩)
      · exact Or.inr ⟨List.cons_prefix_cons.mpr ⟨rfl, h2⟩, by simpa using h3⟩

theorem prefix_append_weak {α : Type} {x q y : List α} (h : q <+: x ++ y) :
    q <+: x ∨ x <+: q :=
  (prefix_append_cases x q y h).imp id And.left

theorem infix_append_split {α : Type} :
    ∀ (x : List α) (q y : List α), q <:+: x ++ y →
      q <:+: x ∨ q <:+: y ∨
        ∃ q₁ q₂, q = q₁ ++ q₂ ∧ q₁ ≠ [] ∧ q₂ ≠ [] ∧ q₁ <:+ x ∧ q₂ <+: y := by
  intro x
  induction x with
  | nil => intro q y h; exact Or.inr (Or.inl (by simpa using h))
  | cons b x' ih =>
    intro q y h
    rw [List.cons_append, List.infix_cons_iff] at h
    rcases h with h | h
    · cases q with
      | nil => exact Or.inl List.nil_infix
      | cons c q' =>
        rw [List.cons_prefix_cons] at h
        obtain ⟨rfl, h'⟩ := h
        rcases prefix_append_cases x' q' y h' with h1 | ⟨h2, h3⟩
        · exact Or.inl (List.cons_prefix_cons.mpr ⟨rfl, h1⟩).isInfix
        · rcases eq_or_ne (q'.drop x'.length) [] with hd | hd
          · have : c :: q' = c :: x' := by
              rw [← prefix_append_drop_eq h2, hd, List.append_nil]
            exact Or.inl (this ▸ List.infix_refl _)
          · refine Or.inr (Or.inr ⟨c :: x', q'.drop x'.length, ?_, by simp, hd,
              List.suffix_refl _, h3⟩)
            rw [List.cons_append, prefix_append_drop_eq h2]
    · rcases ih q y h with h1 | h2 | ⟨q₁, q₂, hq, h₁, h₂, h₃, h₄⟩
      · exact Or.inl (h1.trans (List.suffix_cons b x').isInfix)
      · exact Or.inr (Or.inl h2)
      · exact Or.inr (Or.inr ⟨q₁, q₂, hq, h₁, h₂, h₃.trans (List.suffix_cons b x'), h₄⟩)

theorem countMatchesFuel_congr (p : List Char) :
    ∀ f₁ f₂ s, s.length ≤ f₁ → s.length ≤ f₂ →
      countMatchesFuel p f₁ s = countMatchesFuel p f₂ s := by
  intro f₁
  induction f₁ with
  | zero =>
    intro f₂ s h₁ _
    have hs : s = [] := List.length_eq_zero.mp (Nat.le_zero.mp h₁)
    subst hs
    cases f₂ <;> rfl
  | succ f ih =>
    intro f₂ s h₁ h₂
    cases s with
    | nil => cases f₂ <;> rfl
    | cons a t =>
      cases f₂ with
      | zero => exact absurd h₂ (by simp)
      | succ g =>
        simp only [countMatchesFuel]
        by_cases hp : p = []
        · subst hp
          simp only [if_pos rfl]
          have := ih g t (Nat.le_of_succ_le_succ h₁) (Nat.le_of_succ_le_succ h₂)
          simp [this]
        · simp only [if_neg hp]
          by_cases hpre : p.isPrefixOf (a :: t)
          · simp only [if_pos hpre]
            have hd : ((a :: t).drop p.length).length ≤ t.length := by
              have hplen : 0 < p.length := List.length_pos.mpr hp
              simp only [List.length_drop, List.length_cons]
              omega
            have := ih g ((a :: t).drop p.length)
              (le_trans hd (Nat.le_of_succ_le_succ h₁))
              (le_trans hd (Nat.le_of_succ_le_succ h₂))
            simp [this]
          · simp only [if_neg hpre]
            have := ih g t (Nat.le_of_succ_le_succ h₁) (Nat.le_of_succ_le_succ h₂)
            simp [this]

theorem countMatches_nil_of_ne (p : List Char) (hp : p ≠ []) : countMatches p [] = 0 := by
  simp [countMatches, countMatchesFuel, hp]

theorem countMatches_match (p : List Char) (a : Char) (t : List Char)
    (hp : p ≠ []) (h : p.isPrefixOf (a :: t)) :
    countMatches p (a :: t) = 1 + countMatches p ((a :: t).drop p.length) := by
  have hd : ((a :: t).drop p.length).length ≤ t.length := by
    have hplen : 0 < p.length := List.length_pos.mpr hp
    simp only [List.length_drop, List.length_cons]
    omega
  simp only [countMatches, List.length_cons, countMatchesFuel, if_neg hp, if_pos h]
  congr 1
  exact countMatchesFuel_congr p t.length ((a :: t).drop p.length).length _ hd le_rfl

theorem countMatches_nomatch (p : List Char) (a : Char) (t : List Char)
    (h : ¬ p.isPrefixOf (a :: t)) :
    countMatches p (a :: t) = countMatches p t := by
    have hp : p ≠ [] := by
      rintro rfl
      exact h (by simp [List.isPrefixOf])
    simp only [countMatches, List.length_cons, countMatchesFuel, if_neg hp, if_neg h]

theorem subst_eq_self {p r : List Char} :
    ∀ s, ¬ p <:+: s → subst p r s = s := by
  suffices key : ∀ n s, s.length ≤ n → ¬ p <:+: s → subst p r s = s by
    intro s h
    exact key s.length s le_rfl h
  intro n
  induction n with
  | zero =>
    intro s h1 h2
    have hs : s = [] := List.length_eq_zero.mp (Nat.le_zero.mp h1)
    subst hs
    have hp : p ≠ [] := fun hpe => h2 (by simp [hpe])
    exact subst_nil_of_ne p r hp
  | succ n ih =>
    intro s h1 h2
    have hp : p ≠ [] := fun hpe => h2 (by simp [hpe])
    cases s with
    | nil => exact subst_nil_of_ne p r hp
    | cons a t =>
      by_cases hpre : p.isPrefixOf (a :: t)
      · exact absurd (List.isPrefixOf_iff_prefix.mp hpre).isInfix h2
      · rw [subst_nomatch p r a t hpre]
        have ht : ¬ p <:+: t := fun h => h2 (h.trans (List.suffix_cons a t).isInfix)
        rw [ih t (Nat.le_of_succ_le_succ h1) ht]

theorem countMatches_eq_zero {p : List Char} (hp : p ≠ []) :
    ∀ s, ¬ p <:+: s → countMatches p s = 0 := by
  suffices key : ∀ n s, s.length ≤ n → ¬ p <:+: s → countMatches p s = 0 by
    intro s h
    exact key s.length s le_rfl h
  intro n
  induction n with
  | zero =>
    intro s h1 _
    have hs : s = [] := List.length_eq_zero.mp (Nat.le_zero.mp h1)
    subst hs
    exact countMatches_nil_of_ne p hp
  | succ n ih =>
    intro s h1 h2
    cases s with
    | nil => exact countMatches_nil_of_ne p hp
    | cons a t =>
      by_cases hpre : p.isPrefixOf (a :: t)
      · exact absurd (List.isPrefixOf_iff_prefix.mp hpre).isInfix h2
      · rw [countMatches_nomatch p a t hpre]
        have ht : ¬ p <:+: t := fun h => h2 (h.trans (List.suffix_cons a t).isInfix)
        exact ih t (Nat.le_of_succ_le_succ h1) ht

theorem subst_self_id (p : List Char) : ∀ s, subst p p s = s := by
  suffices key : ∀ n s, s.length ≤ n → subst p p s = s by
    intro s
    exact key s.length s le_rfl
  intro n
  induction n with
  | zero =>
    intro s h1
    have hs : s = [] := List.length_eq_zero.mp (Nat.le_zero.mp h1)
    subst hs
    rw [subst_nil]
    split <;> simp_all
  | succ n ih =>
    intro s h1
    cases s with
    | nil =>
      rw [subst_nil]
      split <;> simp_all
    | cons a t =>
      by_cases hp : p = []
      · subst hp
        rw [subst_empty_cons]
        rw [ih t (Nat.le_of_succ_le_succ h1)]
        rfl
      · by_cases hpre : p.isPrefixOf (a :: t)
        · rw [subst_match p p a t hp hpre]
          have hpfx := List.isPrefixOf_iff_prefix.mp hpre
          have hd : ((a :: t).drop p.length).length ≤ n := by
            have hplen : 0 < p.length := List.length_pos.mpr hp
            simp only [List.length_drop, List.length_cons]
            simp only [List.length_cons] at h1
            omega
          rw [ih _ hd]
          exact prefix_append_drop_eq hpfx
        · rw [subst_nomatch p p a t hpre, ih t (Nat.le_of_succ_le_succ h1)]

theorem subst_prefix_tail (p r q : List Char) (hp : p ≠ [])
    (hC : ∀ v, v <:+ q → v ≠ [] → v ≠ q → ¬ v <+: r ∧ ¬ r <+: v) :
    ∀ s q₁ q₂, q = q₁ ++ q₂ → q₁ ≠ [] → q₂ ≠ [] → q₂ <+: subst p r s → q₂ <+: s := by
  suffices key : ∀ n s, s.length ≤ n → ∀ q₁ q₂, q = q₁ ++ q₂ → q₁ ≠ [] → q₂ ≠ [] →
      q₂ <+: subst p r s → q₂ <+: s by
    intro s
    exact key s.length s le_rfl
  intro n
  induction n with
  | zero =>
    intro s hlen q₁ q₂ hq h₁ h₂ hpre
    have hs : s = [] := List.length_eq_zero.mp (Nat.le_zero.mp hlen)
    subst hs
    rw [subst_nil_of_ne p r hp] at hpre
    exact absurd (List.prefix_nil.mp hpre) h₂
  | succ n ih =>
    intro s hlen q₁ q₂ hq h₁ h₂ hpre
    cases s with
    | nil =>
      rw [subst_nil_of_ne p r hp] at hpre
      exact absurd (List.prefix_nil.mp hpre) h₂
    | cons a t =>
      have hsuf : q₂ <:+ q := ⟨q₁, hq.symm⟩
      have hne : q₂ ≠ q := by
        intro he
        apply h₁
        have : q.length = q₁.length + q₂.length := by rw [hq, List.length_append]
        rw [he] at this
        have : q₁.length = 0 := by omega
        exact List.length_eq_zero.mp this
      by_cases hpm : p.isPrefixOf (a :: t)
      · rw [subst_match p r a t hp hpm] at hpre
        rcases prefix_append_weak hpre with hcase | hcase
        · exact absurd hcase (hC q₂ hsuf h₂ hne).1
        · exact absurd hcase (hC q₂ hsuf h₂ hne).2
      · rw [subst_nomatch p r a t hpm] at hpre
        cases q₂ with
        | nil => exact absurd rfl h₂
        | cons c q₂' =>
          rw [List.cons_prefix_cons] at hpre
          obtain ⟨rfl, hpre'⟩ := hpre
          cases q₂' with
          | nil => exact List.cons_prefix_cons.mpr ⟨rfl, List.nil_prefix⟩
          | cons d q₂'' =>
            have hq' : q = (q₁ ++ [c]) ++ (d :: q₂'') := by
              rw [hq]; simp
            have := ih t (Nat.le_of_succ_le_succ hlen) (q₁ ++ [c]) (d :: q₂'')
              hq' (by simp) (by simp) hpre'
            exact List.cons_prefix_cons.mpr ⟨rfl, this⟩

theorem subst_keeps_out (p r q : List Char) (hq : q ≠ []) (hp : p ≠ [])
    (hA : ¬ q <:+: r)
    (hB : ∀ v, v <:+ r → v ≠ [] → ¬ v <+: q)
    (hC : ∀ v, v <:+ q → v ≠ [] → v ≠ q → ¬ v <+: r ∧ ¬ r <+: v) :
    ∀ s, (q = p ∨ ¬ q <:+: s) → ¬ q <:+: subst p r s := by
  suffices key : ∀ n s, s.length ≤ n → (q = p ∨ ¬ q <:+: s) → ¬ q <:+: subst p r s by
    intro s
    exact key s.length s le_rfl
  intro n
  induction n with
  | zero =>
    intro s hlen _ hinf
    have hs : s = [] := List.length_eq_zero.mp (Nat.le_zero.mp hlen)
    subst hs
    rw [subst_nil_of_ne p r hp] at hinf
    exact hq (List.infix_nil.mp hinf)
  | succ n ih =>
    intro s hlen hs hinf
    cases s with
    | nil =>
      rw [subst_nil_of_ne p r hp] at hinf
      exact hq (List.infix_nil.mp hinf)
    | cons a t =>
      by_cases hpm : p.isPrefixOf (a :: t)
      · rw [subst_match p r a t hp hpm] at hinf
        rcases infix_append_split r q _ hinf with hcase | hcase | ⟨q₁, q₂, hqeq, h₁, h₂, h₃, _⟩
        · exact hA hcase
        · have hd : ((a :: t).drop p.length).length ≤ n := by
            have hplen : 0 < p.length := List.length_pos.mpr hp
            simp only [List.length_drop, List.length_cons]
            simp only [List.length_cons] at hlen
            omega
          have hs' : q = p ∨ ¬ q <:+: (a :: t).drop p.length := by
            rcases hs with rfl | hs
            · exact Or.inl rfl
            · exact Or.inr fun h => hs (h.trans (List.drop_suffix p.length (a :: t)).isInfix)
          exact ih _ hd hs' hcase
        · exact hB q₁ h₃ h₁ ⟨q₂, hqeq.symm⟩
      · rw [subst_nomatch p r a t hpm] at hinf
        have hqs : ¬ q <+: a :: t := by
          intro hcase
          rcases hs with rfl | hs
          · exact hpm (List.isPrefixOf_iff_prefix.mpr hcase)
          · exact hs hcase.isInfix
        rw [List.infix_cons_iff] at hinf
        rcases hinf with hinf | hinf
        · cases q with
          | nil => exact hq rfl
          | cons c q' =>
            rw [List.cons_prefix_cons] at hinf
            obtain ⟨rfl, hinf'⟩ := hinf
            cases q' with
            | nil => exact hqs (List.cons_prefix_cons.mpr ⟨rfl, List.nil_prefix⟩)
            | cons d q'' =>
              have := subst_prefix_tail p r (c :: d :: q'') hp hC t [c] (d :: q'')
                (by simp) (by simp) (by simp) hinf'
              exact hqs (List.cons_prefix_cons.mpr ⟨rfl, this⟩)
        · have ht : q = p ∨ ¬ q <:+: t := by
            rcases hs with rfl | hs
            · exact Or.inl rfl
            · exact Or.inr fun h => hs (h.trans (List.suffix_cons a t).isInfix)
          exact ih t (Nat.le_of_succ_le_succ hlen) ht hinf

theorem goodList_patterns_ne_nil : ∀ R, goodList R → ∀ ru ∈ R, ru.1 ≠ [] := by
  intro R
  induction R with
  | nil => intro _ ru hm; exact absurd hm (List.not_mem_nil ru)
  | cons hd rest ih =>
    obtain ⟨p, r⟩ := hd
    intro hR ru hm
    obtain ⟨hp, _, _, hrest⟩ := hR
    rcases List.mem_cons.mp hm with rfl | hm
    · exact hp
    · exact ih hrest ru hm

theorem subst_keeps_out_of_noRecreate (q p r : List Char) (hq : q ≠ []) (hp : p ≠ [])
    (h : noRecreate q (p, r)) (s : List Char) (hs : q = p ∨ ¬ q <:+: s) :
    ¬ q <:+: subst p r s := by
  obtain ⟨hA, hB, hC⟩ := h
  exact subst_keeps_out p r q hq hp hA
    (fun v hv => hB v ((List.mem_tails _ _).mpr hv))
    (fun v hv => hC v ((List.mem_tails _ _).mpr hv)) s hs

theorem applyAll_keeps_out (q : List Char) (hq : q ≠ []) :
    ∀ R s, (∀ ru ∈ R, ru.1 ≠ [] ∧ noRecreate q ru) → ¬ q <:+: s →
      ¬ q <:+: applyAll R s := by
  intro R
  induction R with
  | nil => intro s _ hs; exact hs
  | cons hd rest ih =>
    obtain ⟨p, r⟩ := hd
    intro s hR hs
    have hhd := hR (p, r) (List.mem_cons_self _ _)
    have step : ¬ q <:+: subst p r s :=
      subst_keeps_out_of_noRecreate q p r hq hhd.1 hhd.2 s (Or.inr hs)
    exact ih (subst p r s) (fun ru hm => hR ru (List.mem_cons_of_mem _ hm)) step

theorem goodList_kills_patterns :
    ∀ R B, goodList R → ∀ ru ∈ R, ¬ ru.1 <:+: applyAll R B := by
  intro R
  induction R with
  | nil => intro B _ ru hm; exact absurd hm (List.not_mem_nil ru)
  | cons hd rest ih =>
    obtain ⟨p, r⟩ := hd
    intro B hR ru hm
    obtain ⟨hp, hself, hcross, hrest⟩ := hR
    rcases List.mem_cons.mp hm with rfl | hm
    · show ¬ p <:+: applyAll rest (subst p r B)
      have step : ¬ p <:+: subst p r B :=
        subst_keeps_out_of_noRecreate p p r hp hp hself B (Or.inl rfl)
      exact applyAll_keeps_out p hp rest (subst p r B)
        (fun ru' hm' => ⟨goodList_patterns_ne_nil rest hrest ru' hm', hcross ru' hm'⟩) step
    · exact ih (subst p r B) hrest ru hm

theorem applyAll_eq_self : ∀ R s, (∀ ru ∈ R, ¬ ru.1 <:+: s) → applyAll R s = s := by
  intro R
  induction R with
  | nil => intro s _; rfl
  | cons hd rest ih =>
    obtain ⟨p, r⟩ := hd
    intro s hR
    show applyAll rest (subst p r s) = s
    rw [subst_eq_self s (hR (p, r) (List.mem_cons_self _ _))]
    exact ih s (fun ru hm => hR ru (List.mem_cons_of_mem _ hm))

set_option maxRecDepth 100000 in
theorem goodList_editor : goodList editorReplacements := by decide

set_option maxRecDepth 100000 in
theorem goodList_viewer : goodList viewerReplacements := by decide

theorem subst_match' (p r : List Char) (a : Char) (t : List Char)
    (hp : p ≠ []) (h : p <+: (a :: t)) :
    subst p r (a :: t) = r ++ subst p r ((a :: t).drop p.length) :=
  subst_match p r a t hp (List.isPrefixOf_iff_prefix.mpr h)

theorem subst_nomatch' (p r : List Char) (a : Char) (t : List Char)
    (h : ¬ p <+: (a :: t)) :
    subst p r (a :: t) = a :: subst p r t :=
  subst_nomatch p r a t (fun hb => h (List.isPrefixOf_iff_prefix.mp hb))

theorem subst_copies_front (p r : List Char) (hp : p ≠ []) :
    ∀ m y, (∀ v, v <:+ m → v ≠ [] → ¬ p <+: v ∧ ¬ v <+: p) →
      subst p r (m ++ y) = m ++ subst p r y := by
  intro m
  induction m with
  | nil => intro y _; simp
  | cons b m' ih =>
    intro y hm
    have hnom : ¬ p <+: (b :: (m' ++ y)) := by
      intro hcase
      rcases prefix_append_weak (x := b :: m') (y := y) (by simpa using hcase) with h | h
      · exact (hm (b :: m') (List.suffix_refl _) (by simp)).1 h
      · exact (hm (b :: m') (List.suffix_refl _) (by simp)).2 h
    rw [List.cons_append, subst_nomatch' p r b (m' ++ y) hnom,
      ih y (fun v hv hne => hm v (hv.trans (List.suffix_cons b m')) hne)]
    rfl

theorem subst_region (p r m : List Char) (hp : p ≠ [])
    (h2 : ∀ v, v <:+ p → v ≠ [] → v ≠ p → ¬ v <+: m)
    (h3 : ∀ v, v <:+ m → v ≠ [] → ¬ p <+: v ∧ ¬ v <+: p)
    (h4 : ¬ (m <:+: p ∧ m ≠ p)) :
    ∀ x y, subst p r (x ++ m ++ y) = subst p r x ++ m ++ subst p r y := by
  suffices key : ∀ n x, x.length ≤ n → ∀ y,
      subst p r (x ++ m ++ y) = subst p r x ++ m ++ subst p r y by
    intro x y
    exact key x.length x le_rfl y
  intro n
  induction n with
  | zero =>
    intro x hlen y
    have hx : x = [] := List.length_eq_zero.mp (Nat.le_zero.mp hlen)
    subst hx
    rw [subst_nil_of_ne p r hp]
    simpa using subst_copies_front p r hp m y h3
  | succ n ih =>
    intro x hlen y
    cases x with
    | nil =>
      rw [subst_nil_of_ne p r hp]
      simpa using subst_copies_front p r hp m y h3
    | cons a x' =>
      by_cases hloc : p <+: (a :: x')
      · have hfull : p <+: (a :: (x' ++ (m ++ y))) := by
          have := hloc.trans (List.prefix_append (a :: x') (m ++ y))
          simpa using this
        have hplen : p.length ≤ x'.length + 1 := by
          simpa using hloc.length_le
        rw [List.append_assoc, List.cons_append,
          subst_match' p r a (x' ++ (m ++ y)) hp hfull,
          subst_match' p r a x' hp hloc]
        have hdrop : (a :: (x' ++ (m ++ y))).drop p.length =
            ((a :: x').drop p.length) ++ (m ++ y) := by
          rw [show a :: (x' ++ (m ++ y)) = (a :: x') ++ (m ++ y) by simp]
          exact List.drop_append_of_le_length (by simpa using hplen)
        have hd : ((a :: x').drop p.length).length ≤ n := by
          have hppos : 0 < p.length := List.length_pos.mpr hp
          simp only [List.length_drop, List.length_cons]
          simp only [List.length_cons] at hlen
          omega
        rw [hdrop, ← List.append_assoc, ih _ hd y]
        simp
      · have hnom : ¬ p <+: (a :: (x' ++ (m ++ y))) := by
          intro hcase
          have hcase' : p <+: (a :: x') ++ (m ++ y) := by simpa using hcase
          rcases prefix_append_cases (a :: x') p (m ++ y) hcase' with h | ⟨hxp, hw⟩
          · exact hloc h
          · by_cases hwe : p.drop (a :: x').length = []
            · apply hloc
              have hlen1 : (a :: x').length ≤ p.length := hxp.length_le
              have hlen2 : p.length ≤ (a :: x').length := by
                have := congrArg List.length hwe
                simp only [List.length_drop, List.length_nil] at this
                omega
              have heq : a :: x' = p := hxp.eq_of_length (le_antisymm hlen1 hlen2)
              rw [← heq]
            · have hwsuf : p.drop (a :: x').length <:+ p := List.drop_suffix _ p
              have hwnep : p.drop (a :: x').length ≠ p := by
                intro he
                have hle := congrArg List.length he
                simp only [List.length_drop] at hle
                have h1 : (a :: x').length ≤ p.length := hxp.length_le
                simp only [List.length_cons] at h1 hle
                omega
              rcases prefix_append_weak hw with h | h
              · exact h2 _ hwsuf hwe hwnep h
              · refine h4 ⟨(h.isInfix).trans hwsuf.isInfix, ?_⟩
                intro he
                have hml := h.length_le
                have hwl : (p.drop (a :: x').length).length < p.length := by
                  simp only [List.length_drop, List.length_cons]
                  have := hxp.length_le
                  simp only [List.length_cons] at this
                  omega
                rw [he] at hml
                omega
        rw [List.append_assoc, List.cons_append,
          subst_nomatch' p r a (x' ++ (m ++ y)) hnom,
          subst_nomatch' p r a x' hloc,
          ← List.append_assoc, ih x' (Nat.le_of_succ_le_succ hlen) y]
        simp

theorem subst_append_pattern (p r : List Char) (hp : p ≠ []) (hb : borderFree p) :
    ∀ x z, subst p r (x ++ p ++ z) = subst p r x ++ r ++ subst p r z := by
  suffices key : ∀ n x, x.length ≤ n → ∀ z,
      subst p r (x ++ p ++ z) = subst p r x ++ r ++ subst p r z by
    intro x z
    exact key x.length x le_rfl z
  intro n
  induction n with
  | zero =>
    intro x hlen z
    have hx : x = [] := List.length_eq_zero.mp (Nat.le_zero.mp hlen)
    subst hx
    rw [subst_nil_of_ne p r hp]
    cases p with
    | nil => exact absurd rfl hp
    | cons c p' =>
      have hm : (c :: p') <+: (c :: (p' ++ z)) := by
        simpa using List.prefix_append (c :: p') z
      rw [List.nil_append, List.nil_append, List.cons_append,
        subst_match' (c :: p') r c (p' ++ z) hp hm]
      congr 1
      rw [show c :: (p' ++ z) = (c :: p') ++ z by simp]
      rw [List.drop_left]
  | succ n ih =>
    intro x hlen z
    cases x with
    | nil =>
      rw [subst_nil_of_ne p r hp]
      cases p with
      | nil => exact absurd rfl hp
      | cons c p' =>
        have hm : (c :: p') <+: (c :: (p' ++ z)) := by
          simpa using List.prefix_append (c :: p') z
        rw [List.nil_append, List.nil_append, List.cons_append,
          subst_match' (c :: p') r c (p' ++ z) hp hm]
        congr 1
        rw [show c :: (p' ++ z) = (c :: p') ++ z by simp]
        rw [List.drop_left]
    | cons a x' =>
      by_cases hloc : p <+: (a :: x')
      · have hfull : p <+: (a :: (x' ++ (p ++ z))) := by
          have := hloc.trans (List.prefix_append (a :: x') (p ++ z))
          simpa using this
        have hplen : p.length ≤ x'.length + 1 := by
          simpa using hloc.length_le
        rw [List.append_assoc, List.cons_append,
          subst_match' p r a (x' ++ (p ++ z)) hp hfull,
          subst_match' p r a x' hp hloc]
        have hdrop : (a :: (x' ++ (p ++ z))).drop p.length =
            ((a :: x').drop p.length) ++ (p ++ z) := by
          rw [show a :: (x' ++ (p ++ z)) = (a :: x') ++ (p ++ z) by simp]
          exact List.drop_append_of_le_length (by simpa using hplen)
        have hd : ((a :: x').drop p.length).length ≤ n := by
          have hppos : 0 < p.length := List.length_pos.mpr hp
          simp only [List.length_drop, List.length_cons]
          simp only [List.length_cons] at hlen
          omega
        rw [hdrop, ← List.append_assoc, ih _ hd z]
        simp
      · have hnom : ¬ p <+: (a :: (x' ++ (p ++ z))) := by
          intro hcase
          have hcase' : p <+: (a :: x') ++ (p ++ z) := by simpa using hcase
          rcases prefix_append_cases (a :: x') p (p ++ z) hcase' with h | ⟨hxp, hw⟩
          · exact hloc h
          · by_cases hwe : p.drop (a :: x').length = []
            · apply hloc
              have hlen1 : (a :: x').length ≤ p.length := hxp.length_le
              have hlen2 : p.length ≤ (a :: x').length := by
                have := congrArg List.length hwe
                simp only [List.length_drop, List.length_nil] at this
                omega
              have heq : a :: x' = p := hxp.eq_of_length (le_antisymm hlen1 hlen2)
              rw [← heq]
            · have hwsuf : p.drop (a :: x').length <:+ p := List.drop_suffix _ p
              have hwnep : p.drop (a :: x').length ≠ p := by
                intro he
                have hle := congrArg List.length he
                simp only [List.length_drop] at hle
                have h1 : (a :: x').length ≤ p.length := hxp.length_le
                simp only [List.length_cons] at h1 hle
                omega
              have hwlt : (p.drop (a :: x').length).length < p.length := by
                simp only [List.length_drop, List.length_cons]
                have := hxp.length_le
                simp only [List.length_cons] at this
                omega
              rcases prefix_append_weak hw with h | h
              · exact hb _ ((List.mem_tails _ _).mpr hwsuf) hwe hwnep h
              · have := h.length_le
                omega
        rw [List.append_assoc, List.cons_append,
          subst_nomatch' p r a (x' ++ (p ++ z)) hnom,
          subst_nomatch' p r a x' hloc,
          ← List.append_assoc, ih x' (Nat.le_of_succ_le_succ hlen) z]
        simp

theorem applyAll_append : ∀ R₁ R₂ s, applyAll (R₁ ++ R₂) s = applyAll R₂ (applyAll R₁ s) := by
  intro R₁
  induction R₁ with
  | nil => intro R₂ s; rfl
  | cons hd rest ih =>
    obtain ⟨p, r⟩ := hd
    intro R₂ s
    exact ih R₂ (subst p r s)

theorem subst_region_of_regionKeep (p r m : List Char) (hp : p ≠ [])
    (hk : regionKeep p m) (x y : List Char) :
    subst p r (x ++ m ++ y) = subst p r x ++ m ++ subst p r y := by
  obtain ⟨hk1, hk2, hk3⟩ := hk
  exact subst_region p r m hp
    (fun v hv => hk1 v ((List.mem_tails _ _).mpr hv))
    (fun v hv => hk2 v ((List.mem_tails _ _).mpr hv)) hk3 x y

theorem applyAll_region :
    ∀ R m, (∀ ru ∈ R, ru.1 ≠ [] ∧ regionKeep ru.1 m) →
      ∀ x y, applyAll R (x ++ m ++ y) = applyAll R x ++ m ++ applyAll R y := by
  intro R
  induction R with
  | nil => intro m _ x y; rfl
  | cons hd rest ih =>
    obtain ⟨p, r⟩ := hd
    intro m hR x y
    have hhd := hR (p, r) (List.mem_cons_self _ _)
    show applyAll rest (subst p r (x ++ m ++ y)) = applyAll rest (subst p r x) ++ m ++
      applyAll rest (subst p r y)
    rw [subst_region_of_regionKeep p r m hhd.1 hhd.2 x y]
    exact ih m (fun ru hm => hR ru (List.mem_cons_of_mem _ hm)) _ _

theorem applyAll_focus (pre post : List Rule) (p r tail : List Char)
    (hp : p ≠ []) (hb : borderFree p)
    (hpre : ∀ ru ∈ pre, ru.1 ≠ [] ∧ regionKeep ru.1 (p ++ tail))
    (htail : ∀ v, v <:+ tail → v ≠ [] → ¬ p <+: v ∧ ¬ v <+: p)
    (hpost : ∀ ru ∈ post, ru.1 ≠ [] ∧ regionKeep ru.1 (r ++ tail))
    (x y : List Char) :
    applyAll (pre ++ (p, r) :: post) (x ++ (p ++ tail) ++ y) =
      applyAll (pre ++ (p, r) :: post) x ++ (r ++ tail) ++
        applyAll (pre ++ (p, r) :: post) y := by
  have hsplit : ∀ s, applyAll (pre ++ (p, r) :: post) s =
      applyAll post (subst p r (applyAll pre s)) := by
    intro s
    rw [show (p, r) :: post = [(p, r)] ++ post from rfl, ← List.append_assoc,
      applyAll_append, applyAll_append]
    rfl
  rw [hsplit, hsplit, hsplit, applyAll_region pre (p ++ tail) hpre x y]
  have hassoc : applyAll pre x ++ (p ++ tail) ++ applyAll pre y
      = applyAll pre x ++ p ++ (tail ++ applyAll pre y) := by
    simp [List.append_assoc]
  rw [hassoc, subst_append_pattern p r hp hb _ _,
    subst_copies_front p r hp tail _ htail]
  have hassoc2 : subst p r (applyAll pre x) ++ r ++ (tail ++ subst p r (applyAll pre y))
      = subst p r (applyAll pre x) ++ (r ++ tail) ++ subst p r (applyAll pre y) := by
    simp [List.append_assoc]
  rw [hassoc2, applyAll_region post (r ++ tail) hpost _ _]

theorem firstOcc_nil_of_ne (p : List Char) (hp : p ≠ []) : firstOcc p [] = none := by
  simp [firstOcc, hp]

theorem firstOcc_cons_match (p : List Char) (a : Char) (t : List Char)
    (h : p.isPrefixOf (a :: t)) : firstOcc p (a :: t) = some 0 := by
  simp [firstOcc, h]

theorem firstOcc_cons_nomatch (p : List Char) (a : Char) (t : List Char)
    (h : ¬ p.isPrefixOf (a :: t)) :
    firstOcc p (a :: t) = (firstOcc p t).map (· + 1) := by
  simp [firstOcc, h]

theorem subst_leftmost (p r : List Char) (hp : p ≠ []) :
    ∀ x y, firstOcc p (x ++ p ++ y) = some x.length →
      subst p r (x ++ p ++ y) = x ++ r ++ subst p r y := by
  intro x
  induction x with
  | nil =>
    intro y _
    cases p with
    | nil => exact absurd rfl hp
    | cons c p' =>
      have hm : (c :: p') <+: (c :: (p' ++ y)) := by
        simpa using List.prefix_append (c :: p') y
      rw [List.nil_append, List.nil_append, List.cons_append,
        subst_match' (c :: p') r c (p' ++ y) hp hm]
      rw [show c :: (p' ++ y) = (c :: p') ++ y by simp, List.drop_left]
  | cons a x' ih =>
    intro y h
    have hshape : (a :: x') ++ p ++ y = a :: (x' ++ p ++ y) := by simp
    rw [hshape] at h
    have hnom : ¬ p.isPrefixOf (a :: (x' ++ p ++ y)) := by
      intro hb
      rw [firstOcc_cons_match p a _ hb] at h
      simp at h
    rw [firstOcc_cons_nomatch p a _ hnom] at h
    rw [Option.map_eq_some'] at h
    obtain ⟨i, hi, hieq⟩ := h
    have : i = x'.length := by
      simp only [List.length_cons] at hieq
      omega
    subst this
    rw [hshape, subst_nomatch p r a _ hnom, ih y hi]
    simp

theorem subst_sublist (p r : List Char) (hp : p ≠ []) (hpr : List.Sublist p r) :
    ∀ s, List.Sublist s (subst p r s) := by
  suffices key : ∀ n s, s.length ≤ n → List.Sublist s (subst p r s) by
    intro s
    exact key s.length s le_rfl
  intro n
  induction n with
  | zero =>
    intro s hlen
    have hs : s = [] := List.length_eq_zero.mp (Nat.le_zero.mp hlen)
    subst hs
    rw [subst_nil_of_ne p r hp]
  | succ n ih =>
    intro s hlen
    cases s with
    | nil => rw [subst_nil_of_ne p r hp]
    | cons a t =>
      by_cases hpm : p.isPrefixOf (a :: t)
      · rw [subst_match p r a t hp hpm]
        have hpfx := List.isPrefixOf_iff_prefix.mp hpm
        have hd : ((a :: t).drop p.length).length ≤ n := by
          have hppos : 0 < p.length := List.length_pos.mpr hp
          simp only [List.length_drop, List.length_cons]
          simp only [List.length_cons] at hlen
          omega
        have step := List.Sublist.append hpr (ih _ hd)
        rw [prefix_append_drop_eq hpfx] at step
        exact step
      · rw [subst_nomatch p r a t hpm]
        exact List.Sublist.cons₂ a (ih t (Nat.le_of_succ_le_succ hlen))

theorem applyAll_sublist :
    ∀ R, (∀ ru ∈ R, ru.1 ≠ [] ∧ List.Sublist ru.1 ru.2) →
      ∀ B, List.Sublist B (applyAll R B) := by
  intro R
  induction R with
  | nil => intro _ B; exact List.Sublist.refl B
  | cons hd rest ih =>
    obtain ⟨p, r⟩ := hd
    intro hR B
    have hhd := hR (p, r) (List.mem_cons_self _ _)
    exact (subst_sublist p r hhd.1 hhd.2 B).trans
      (ih (fun ru hm => hR ru (List.mem_cons_of_mem _ hm)) (subst p r B))

theorem subst_length (p r : List Char) (hp : p ≠ []) (k : Nat)
    (hk : r.length = p.length + k) :
    ∀ s, (subst p r s).length = s.length + k * countMatches p s := by
  suffices key : ∀ n s, s.length ≤ n →
      (subst p r s).length = s.length + k * countMatches p s by
    intro s
    exact key s.length s le_rfl
  intro n
  induction n with
  | zero =>
    intro s hlen
    have hs : s = [] := List.length_eq_zero.mp (Nat.le_zero.mp hlen)
    subst hs
    rw [subst_nil_of_ne p r hp, countMatches_nil_of_ne p hp]
    simp
  | succ n ih =>
    intro s hlen
    cases s with
    | nil =>
      rw [subst_nil_of_ne p r hp, countMatches_nil_of_ne p hp]
      simp
    | cons a t =>
      by_cases hpm : p.isPrefixOf (a :: t)
      · rw [subst_match p r a t hp hpm, countMatches_match p a t hp hpm]
        have hpfx := List.isPrefixOf_iff_prefix.mp hpm
        have hple : p.length ≤ (a :: t).length := hpfx.length_le
        have hd : ((a :: t).drop p.length).length ≤ n := by
          have hppos : 0 < p.length := List.length_pos.mpr hp
          simp only [List.length_drop, List.length_cons]
          simp only [List.length_cons] at hlen
          omega
        rw [List.length_append, ih _ hd, hk, Nat.mul_add, Nat.mul_one]
        have hdl : ((a :: t).drop p.length).length = (a :: t).length - p.length := by
          simp [List.length_drop]
        rw [hdl]
        generalize countMatches p ((a :: t).drop p.length) = C
        have hKC : k * C = k * C := rfl
        generalize k * C = K
        omega
      · rw [subst_nomatch p r a t hpm, countMatches_nomatch p a t hpm]
        simp only [List.length_cons, ih t (Nat.le_of_succ_le_succ hlen)]
        omega

theorem applyAll_length :
    ∀ R, (∀ ru ∈ R, ru.1 ≠ [] ∧ ru.2.length = ru.1.length + 7) →
      ∀ B, (applyAll R B).length = B.length + 7 * totalMatches R B := by
  intro R
  induction R with
  | nil => intro _ B; simp [applyAll, totalMatches]
  | cons hd rest ih =>
    obtain ⟨p, r⟩ := hd
    intro hR B
    have hhd := hR (p, r) (List.mem_cons_self _ _)
    show (applyAll rest (subst p r B)).length = B.length + 7 * totalMatches ((p, r) :: rest) B
    rw [ih (fun ru hm => hR ru (List.mem_cons_of_mem _ hm)) (subst p r B),
      subst_length p r hhd.1 7 hhd.2 B,
      show totalMatches ((p, r) :: rest) B =
        countMatches p B + totalMatches rest (subst p r B) from rfl,
      Nat.mul_add]
    generalize countMatches p B = C
    generalize totalMatches rest (subst p r B) = T
    generalize 7 * C = KC
    generalize 7 * T = KT
    omega

theorem replaceNaiveFuel_congr (p r : List Char) (hp : p ≠ []) :
    ∀ f₁ f₂ s, s.length ≤ f₁ → s.length ≤ f₂ →
      replaceNaiveFuel p r f₁ s = replaceNaiveFuel p r f₂ s := by
  intro f₁
  induction f₁ with
  | zero =>
    intro f₂ s h₁ _
    have hs : s = [] := List.length_eq_zero.mp (Nat.le_zero.mp h₁)
    subst hs
    cases f₂ <;> rfl
  | succ f ih =>
    intro f₂ s h₁ h₂
    cases s with
    | nil => cases f₂ <;> rfl
    | cons a t =>
      cases f₂ with
      | zero => exact absurd h₂ (by simp)
      | succ g =>
        simp only [replaceNaiveFuel, if_neg hp]
        cases hfo : firstOcc p (a :: t) with
        | none => rfl
        | some i =>
          have hd : ((a :: t).drop (i + p.length)).length ≤ t.length := by
            have hplen : 0 < p.length := List.length_pos.mpr hp
            simp only [List.length_drop, List.length_cons]
            omega
          have := ih g ((a :: t).drop (i + p.length))
            (le_trans hd (Nat.le_of_succ_le_succ h₁))
            (le_trans hd (Nat.le_of_succ_le_succ h₂))
          simp [this]

theorem replaceNaive_nil (p r : List Char) : replaceNaive p r [] = [] := rfl

theorem replaceNaive_none (p r s : List Char) (hp : p ≠ [])
    (h : firstOcc p s = none) : replaceNaive p r s = s := by
  cases s with
  | nil => rfl
  | cons a t => simp [replaceNaive, replaceNaiveFuel, if_neg hp, h]

theorem replaceNaive_some (p r s : List Char) (i : Nat) (hp : p ≠ [])
    (h : firstOcc p s = some i) :
    replaceNaive p r s = s.take i ++ r ++ replaceNaive p r (s.drop (i + p.length)) := by
  cases s with
  | nil => rw [firstOcc_nil_of_ne p hp] at h; exact absurd h (by simp)
  | cons a t =>
    have hd : ((a :: t).drop (i + p.length)).length ≤ t.length := by
      have hplen : 0 < p.length := List.length_pos.mpr hp
      simp only [List.length_drop, List.length_cons]
      omega
    simp only [replaceNaive, List.length_cons, replaceNaiveFuel, if_neg hp, h]
    congr 1
    exact replaceNaiveFuel_congr p r hp t.length _ _ hd le_rfl

theorem subst_of_firstOcc_none (p r : List Char) :
    ∀ s, firstOcc p s = none → subst p r s = s := by
  intro s
  induction s with
  | nil =>
    intro h
    have hp : p ≠ [] := by
      intro hpe
      rw [hpe] at h
      simp [firstOcc] at h
    exact subst_nil_of_ne p r hp
  | cons a t ih =>
    intro h
    by_cases hpm : p.isPrefixOf (a :: t)
    · rw [firstOcc_cons_match p a t hpm] at h
      exact absurd h (by simp)
    · rw [firstOcc_cons_nomatch p a t hpm] at h
      rw [Option.map_eq_none'] at h
      rw [subst_nomatch p r a t hpm, ih h]

theorem subst_eq_replaceNaive (p r : List Char) (hp : p ≠ []) :
    ∀ s, subst p r s = replaceNaive p r s := by
  suffices key : ∀ n s, s.length ≤ n → subst p r s = replaceNaive p r s by
    intro s
    exact key s.length s le_rfl
  intro n
  induction n with
  | zero =>
    intro s hlen
    have hs : s = [] := List.length_eq_zero.mp (Nat.le_zero.mp hlen)
    subst hs
    rw [subst_nil_of_ne p r hp, replaceNaive_nil]
  | succ n ih =>
    intro s hlen
    cases s with
    | nil => rw [subst_nil_of_ne p r hp, replaceNaive_nil]
    | cons a t =>
      by_cases hpm : p.isPrefixOf (a :: t)
      · have hfo := firstOcc_cons_match p a t hpm
        rw [subst_match p r a t hp hpm, replaceNaive_some p r (a :: t) 0 hp hfo]
        have hd : ((a :: t).drop p.length).length ≤ n := by
          have hppos : 0 < p.length := List.length_pos.mpr hp
          simp only [List.length_drop, List.length_cons]
          simp only [List.length_cons] at hlen
          omega
        rw [show (0 : Nat) + p.length = p.length from by omega, ← ih _ hd]
        simp
      · rw [subst_nomatch p r a t hpm]
        cases hfo : firstOcc p t with
        | none =>
          have hfo' : firstOcc p (a :: t) = none := by
            rw [firstOcc_cons_nomatch p a t hpm, hfo]
            rfl
          rw [replaceNaive_none p r (a :: t) hp hfo', subst_of_firstOcc_none p r t hfo]
        | some j =>
          have hfo' : firstOcc p (a :: t) = some (j + 1) := by
            rw [firstOcc_cons_nomatch p a t hpm, hfo]
            rfl
          rw [replaceNaive_some p r (a :: t) (j + 1) hp hfo']
          have hdrop : (a :: t).drop (j + 1 + p.length) = t.drop (j + p.length) := by
            rw [show j + 1 + p.length = (j + p.length) + 1 by omega]
            rfl
          rw [hdrop, show (a :: t).take (j + 1) = a :: t.take j from rfl]
          rw [ih t (Nat.le_of_succ_le_succ hlen),
            replaceNaive_some p r t j hp hfo]
          simp

theorem applyAll_eq_applyAllNaive :
    ∀ R, (∀ ru ∈ R, ru.1 ≠ []) → ∀ B, applyAll R B = applyAllNaive R B := by
  intro R
  induction R with
  | nil => intro _ B; rfl
  | cons hd rest ih =>
    obtain ⟨p, r⟩ := hd
    intro hR B
    show applyAll rest (subst p r B) = applyAllNaive rest (replaceNaive p r B)
    rw [subst_eq_replaceNaive p r (hR (p, r) (List.mem_cons_self _ _)) B]
    exact ih (fun ru hm => hR ru (List.mem_cons_of_mem _ hm)) _

theorem firstRule_some {rules : List Rule} {s : List Char} {ru : Rule}
    (h : firstRule rules s = some ru) : ru.1 ≠ [] ∧ ru.1 <+: s := by
  have := List.find?_some h
  rw [Bool.and_eq_true] at this
  constructor
  · intro he
    rw [he] at this
    simp at this
  · exact List.isPrefixOf_iff_prefix.mp this.2

theorem substSimFuel_congr (rules : List Rule) :
    ∀ f₁ f₂ s, s.length ≤ f₁ → s.length ≤ f₂ →
      substSimFuel rules f₁ s = substSimFuel rules f₂ s := by
  intro f₁
  induction f₁ with
  | zero =>
    intro f₂ s h₁ _
    have hs : s = [] := List.length_eq_zero.mp (Nat.le_zero.mp h₁)
    subst hs
    cases f₂ <;> rfl
  | succ f ih =>
    intro f₂ s h₁ h₂
    cases s with
    | nil => cases f₂ <;> rfl
    | cons a t =>
      cases f₂ with
      | zero => exact absurd h₂ (by simp)
      | succ g =>
        simp only [substSimFuel]
        cases hfr : firstRule rules (a :: t) with
        | none =>
          have := ih g t (Nat.le_of_succ_le_succ h₁) (Nat.le_of_succ_le_succ h₂)
          simp [this]
        | some ru =>
          have hru := firstRule_some hfr
          have hd : ((a :: t).drop ru.1.length).length ≤ t.length := by
            have hplen : 0 < ru.1.length := List.length_pos.mpr hru.1
            simp only [List.length_drop, List.length_cons]
            omega
          have := ih g ((a :: t).drop ru.1.length)
            (le_trans hd (Nat.le_of_succ_le_succ h₁))
            (le_trans hd (Nat.le_of_succ_le_succ h₂))
          simp [this]

theorem substSim_nil (rules : List Rule) : substSim rules [] = [] := rfl

theorem substSim_cons_some (rules : List Rule) (a : Char) (t : List Char) (ru : Rule)
    (h : firstRule rules (a :: t) = some ru) :
    substSim rules (a :: t) = ru.2 ++ substSim rules ((a :: t).drop ru.1.length) := by
  have hru := firstRule_some h
  have hd : ((a :: t).drop ru.1.length).length ≤ t.length := by
    have hplen : 0 < ru.1.length := List.length_pos.mpr hru.1
    simp only [List.length_drop, List.length_cons]
    omega
  simp only [substSim, List.length_cons, substSimFuel, h]
  congr 1
  exact substSimFuel_congr rules t.length _ _ hd le_rfl

theorem substSim_cons_none (rules : List Rule) (a : Char) (t : List Char)
    (h : firstRule rules (a :: t) = none) :
    substSim rules (a :: t) = a :: substSim rules t := by
  simp only [substSim, List.length_cons, substSimFuel, h]

theorem applyAll_eq_foldl : ∀ (R : List Rule) (B : List Char),
    applyAll R B = R.foldl (fun s ru => subst ru.1 ru.2 s) B := by
  intro R
  induction R with
  | nil => intro B; rfl
  | cons hd rest ih =>
    obtain ⟨p, r⟩ := hd
    intro B
    show applyAll rest (subst p r B) = _
    rw [List.foldl_cons, ih (subst p r B)]

theorem applyAll_focus_nil_tail (pre post : List Rule) (p r : List Char)
    (hp : p ≠ []) (hb : borderFree p)
    (hpre : ∀ ru ∈ pre, ru.1 ≠ [] ∧ regionKeep ru.1 p)
    (hpost : ∀ ru ∈ post, ru.1 ≠ [] ∧ regionKeep ru.1 r)
    (x y : List Char) :
    applyAll (pre ++ (p, r) :: post) (x ++ p ++ y) =
      applyAll (pre ++ (p, r) :: post) x ++ r ++ applyAll (pre ++ (p, r) :: post) y := by
  have h := applyAll_focus pre post p r [] hp hb
    (by simpa using hpre)
    (by intro v hv hne; simp at hv; exact absurd hv hne)
    (by simpa using hpost) x y
  simpa using h

theorem seq_eq_sim_for_c5 :
    ∀ B : List Char, applyAll [(['a'], ['b']), (['b'], ['b'])] B =
      substSim [(['a'], ['b']), (['b'], ['b'])] B := by
  have key : ∀ t : List Char,
      subst ['a'] ['b'] t = substSim [(['a'], ['b']), (['b'], ['b'])] t := by
    intro u
    induction u with
    | nil => rw [subst_nil_of_ne ['a'] ['b'] (by simp), substSim_nil]
    | cons c t ih =>
      by_cases hca : c = 'a'
      · subst hca
        have hm : (['a'] : List Char) <+: ('a' :: t) := ⟨t, rfl⟩
        have hfr : firstRule [(['a'], ['b']), (['b'], ['b'])] ('a' :: t) =
            some (['a'], ['b']) := by
          simp [firstRule, List.find?, List.isPrefixOf]
        rw [subst_match' ['a'] ['b'] 'a' t (by simp) hm,
          substSim_cons_some _ 'a' t _ hfr]
        simpa using ih
      · by_cases hcb : c = 'b'
        · subst hcb
          have hnom : ¬ (['a'] : List Char) <+: ('b' :: t) := by
            intro h
            rw [List.cons_prefix_cons] at h
            exact absurd h.1 (by decide)
          have hfr : firstRule [(['a'], ['b']), (['b'], ['b'])] ('b' :: t) =
              some (['b'], ['b']) := by
            simp [firstRule, List.find?, List.isPrefixOf]
          rw [subst_nomatch' ['a'] ['b'] 'b' t hnom,
            substSim_cons_some _ 'b' t _ hfr]
          simpa using ih
        · have hnom : ¬ (['a'] : List Char) <+: (c :: t) := by
            intro h
            rw [List.cons_prefix_cons] at h
            exact hca h.1.symm
          have e1 : ('a' == c) = false := by
            rw [beq_eq_false_iff_ne]
            intro h
            exact hca h.symm
          have e2 : ('b' == c) = false := by
            rw [beq_eq_false_iff_ne]
            intro h
            exact hcb h.symm
          have hfr : firstRule [(['a'], ['b']), (['b'], ['b'])] (c :: t) = none := by
            simp [firstRule, List.find?, List.isPrefixOf, e1, e2]
          rw [subst_nomatch' ['a'] ['b'] c t hnom, substSim_cons_none _ c t hfr, ih]
  intro B
  show subst ['b'] ['b'] (subst ['a'] ['b'] B) = _
  rw [subst_self_id, key B]

/-- C1: for every input blob, the program applies the rules of its rule list
one at a time in list order (the loop is the left fold of single-rule
substitution), and each rule application is case-sensitive, unanchored,
leftmost-first global substitution: a string without an occurrence is
unchanged, the leftmost occurrence is replaced and the scan continues after
the inserted replacement (so every non-overlapping occurrence is replaced,
not a single one), and matching distinguishes case. -/
theorem C1_rules_in_order_global_leftmost :
    (∀ (R : List Rule) (B : List Char),
        applyAll R B = R.foldl (fun s ru => subst ru.1 ru.2 s) B) ∧
    (∀ p r s : List Char, ¬ p <:+: s → subst p r s = s) ∧
    (∀ p r x y : List Char, p ≠ [] → firstOcc p (x ++ p ++ y) = some x.length →
        subst p r (x ++ p ++ y) = x ++ r ++ subst p r y) ∧
    subst ['a'] ['b'] ['A'] = ['A'] := by
  refine ⟨applyAll_eq_foldl, ?_, ?_, by decide⟩
  · intro p r s h
    exact subst_eq_self s h
  · intro p r x y hp h
    exact subst_leftmost p r hp x y h

/-- C2 counterexample: for the single rule (`ab` → `ba`), whose pattern does
not occur in its replacement, applying the rule list twice to `aab` gives
`baa`, not the once-applied `aba`: the claimed sufficient condition for
idempotence fails because a replacement can complete a fresh match with the
surrounding text. -/
theorem C2_counterexample :
    (¬ ('a' :: 'b' :: []) <:+: ('b' :: 'a' :: [])) ∧
    applyAll [(['a', 'b'], ['b', 'a'])] ['a', 'a', 'b'] = ['a', 'b', 'a'] ∧
    applyAll [(['a', 'b'], ['b', 'a'])]
        (applyAll [(['a', 'b'], ['b', 'a'])] ['a', 'a', 'b']) ≠
      applyAll [(['a', 'b'], ['b', 'a'])] ['a', 'a', 'b'] := by
  refine ⟨by decide, by decide, by decide⟩

/-- C2 (amended): for every input blob `B` and rule list `R` such that no
rule's pattern occurs as a substring of the once-applied result
`apply(R, B)`, applying the substitution function twice equals applying it
once. -/
theorem C2_amended_idempotent (R : List Rule) (B : List Char)
    (h : ∀ ru ∈ R, ¬ ru.1 <:+: applyAll R B) :
    applyAll R (applyAll R B) = applyAll R B :=
  applyAll_eq_self R (applyAll R B) h

theorem C2_amended_idempotent_witness :
    applyAll [(['a'], ['b'])] (applyAll [(['a'], ['b'])] ['a']) =
      applyAll [(['a'], ['b'])] ['a'] :=
  C2_amended_idempotent [(['a'], ['b'])] ['a'] (by decide)

/-- C3: for every input blob containing `className="classroom-badge-fixed"`,
the viewer rule list (whose `classroom-badge` pattern has no closing quote)
turns that occurrence into `className="viewer-classroom-badge-fixed"`: the
unquoted pattern matches class names of which `classroom-badge` is a proper
prefix, and the surrounding text is processed independently. -/
theorem C3_classroom_badge_prefix_match :
    ∀ x y : List Char,
      applyAll viewerReplacements
          (x ++ "className=\"classroom-badge-fixed\"".data ++ y) =
        applyAll viewerReplacements x ++
          "className=\"viewer-classroom-badge-fixed\"".data ++
          applyAll viewerReplacements y := by
  intro x y
  have hocc : "className=\"classroom-badge-fixed\"".data =
      "className=\"classroom-badge".data ++ "-fixed\"".data := by decide
  have hoccV : "className=\"viewer-classroom-badge-fixed\"".data =
      "className=\"viewer-classroom-badge".data ++ "-fixed\"".data := by decide
  have hsplit : viewerReplacements =
      viewerReplacements.take 11 ++
        ("className=\"classroom-badge".data, "className=\"viewer-classroom-badge".data) ::
          viewerReplacements.drop 12 := by decide
  rw [hocc, hoccV, hsplit]
  exact applyAll_focus (viewerReplacements.take 11) (viewerReplacements.drop 12)
    "className=\"classroom-badge".data "className=\"viewer-classroom-badge".data
    "-fixed\"".data (by decide) (by decide) (by decide)
    (by
      have H : ∀ v ∈ "-fixed\"".data.tails, v ≠ [] →
          ¬ "className=\"classroom-badge".data <+: v ∧
          ¬ v <+: "className=\"classroom-badge".data := by decide
      intro v hv hne
      exact H v ((List.mem_tails _ _).mpr hv) hne)
    (by decide) x y

/-- C4: for the two concrete rule lists of the scripts and every input blob
`B`, a second application of the same list performs zero substitutions —
after one application no rule's pattern occurs in the result, so each
rule's match count on the result is zero — and therefore
`apply(R, apply(R, B)) = apply(R, B)`. -/
theorem C4_concrete_lists_idempotent :
    ∀ B : List Char,
      ((∀ ru ∈ editorReplacements,
          ¬ ru.1 <:+: applyAll editorReplacements B ∧
          countMatches ru.1 (applyAll editorReplacements B) = 0) ∧
        applyAll editorReplacements (applyAll editorReplacements B) =
          applyAll editorReplacements B) ∧
      ((∀ ru ∈ viewerReplacements,
          ¬ ru.1 <:+: applyAll viewerReplacements B ∧
          countMatches ru.1 (applyAll viewerReplacements B) = 0) ∧
        applyAll viewerReplacements (applyAll viewerReplacements B) =
          applyAll viewerReplacements B) := by
  intro B
  have he := goodList_kills_patterns editorReplacements B goodList_editor
  have hv := goodList_kills_patterns viewerReplacements B goodList_viewer
  refine ⟨⟨fun ru hm => ⟨he ru hm, ?_⟩, applyAll_eq_self _ _ he⟩,
    ⟨fun ru hm => ⟨hv ru hm, ?_⟩, applyAll_eq_self _ _ hv⟩⟩
  · exact countMatches_eq_zero
      (goodList_patterns_ne_nil _ goodList_editor ru hm) _ (he ru hm)
  · exact countMatches_eq_zero
      (goodList_patterns_ne_nil _ goodList_viewer ru hm) _ (hv ru hm)

/-- C5 counterexample: the rule list `[(a → b), (b → b)]` has a rule whose
replacement contains a later rule's pattern (`b` occurs in `b`), yet for
every input blob the sequential result coincides with the simultaneous
one-pass result, so no blob witnesses a difference: the claim's universal
quantification over such rule lists is false. -/
theorem C5_counterexample :
    (['b'] : List Char) <:+: ['b'] ∧
    ∀ B : List Char,
      applyAll [(['a'], ['b']), (['b'], ['b'])] B =
        substSim [(['a'], ['b']), (['b'], ['b'])] B :=
  ⟨by decide, seq_eq_sim_for_c5⟩

/-- C5 (amended): the substitution function is the sequential left fold of
single-rule global substitution over the rule list, and there exists a rule
list in which an earlier rule's replacement contains a later rule's pattern
together with an input blob on which the sequential result (the later rule
rewriting text introduced by the earlier rule) differs from applying all
rules simultaneously to the original blob — the program producing the
sequential result. -/
theorem C5_sequential_fold :
    (∀ (R : List Rule) (B : List Char),
        applyAll R B = R.foldl (fun s ru => subst ru.1 ru.2 s) B) ∧
    ((['b'] : List Char) <:+: ['b']) ∧
    applyAll [(['a'], ['b']), (['b'], ['c'])] ['a'] = ['c'] ∧
    substSim [(['a'], ['b']), (['b'], ['c'])] ['a'] = ['b'] ∧
    applyAll [(['a'], ['b']), (['b'], ['c'])] ['a'] ≠
      substSim [(['a'], ['b']), (['b'], ['c'])] ['a'] :=
  ⟨applyAll_eq_foldl, by decide, by decide, by decide, by decide⟩

/-- C6: for every input blob, the editor rule list rewrites each occurrence
of `className="timetable-grid"` to `className="editor-timetable-grid"`, and
`className="subject-code"` becomes `className="viewer-subject-code"` under
the viewer list and `className="editor-subject-code"` under the editor
list, the surrounding text being processed independently. -/
theorem C6_scenarios :
    ∀ x y : List Char,
      (applyAll editorReplacements
          (x ++ "className=\"timetable-grid\"".data ++ y) =
        applyAll editorReplacements x ++ "className=\"editor-timetable-grid\"".data ++
          applyAll editorReplacements y) ∧
      (applyAll viewerReplacements
          (x ++ "className=\"subject-code\"".data ++ y) =
        applyAll viewerReplacements x ++ "className=\"viewer-subject-code\"".data ++
          applyAll viewerReplacements y) ∧
      (applyAll editorReplacements
          (x ++ "className=\"subject-code\"".data ++ y) =
        applyAll editorReplacements x ++ "className=\"editor-subject-code\"".data ++
          applyAll editorReplacements y) := by
  intro x y
  refine ⟨?_, ?_, ?_⟩
  · have hsplit : editorReplacements =
        [] ++ ("className=\"timetable-grid\"".data,
          "className=\"editor-timetable-grid\"".data) ::
          editorReplacements.drop 1 := by decide
    rw [hsplit]
    exact applyAll_focus_nil_tail [] (editorReplacements.drop 1)
      "className=\"timetable-grid\"".data "className=\"editor-timetable-grid\"".data
      (by decide) (by decide) (by decide) (by decide) x y
  · have hsplit : viewerReplacements =
        viewerReplacements.take 3 ++ ("className=\"subject-code\"".data,
          "className=\"viewer-subject-code\"".data) ::
          viewerReplacements.drop 4 := by decide
    rw [hsplit]
    exact applyAll_focus_nil_tail (viewerReplacements.take 3)
      (viewerReplacements.drop 4)
      "className=\"subject-code\"".data "className=\"viewer-subject-code\"".data
      (by decide) (by decide) (by decide) (by decide) x y
  · have hsplit : editorReplacements =
        editorReplacements.take 1 ++ ("className=\"subject-code\"".data,
          "className=\"editor-subject-code\"".data) :: [] := by decide
    rw [hsplit]
    exact applyAll_focus_nil_tail (editorReplacements.take 1) []
      "className=\"subject-code\"".data "className=\"editor-subject-code\"".data
      (by decide) (by decide) (by decide) (by decide) x y

/-- C7: for every file state whose read and write succeed and whose content
contains no rule's pattern, the whole run writes back content identical to
the content read: the file's contents are left unchanged (stated for both
scripts). -/
theorem C7_no_match_writes_back_identical (fs : FileSys)
    (hp : fs.present = true) (hr : fs.readable = true)
    (hw : fs.writable = true) (hu : fs.validUTF8 = true) :
    ((∀ ru ∈ editorReplacements, ¬ ru.1 <:+: fs.content) →
      runScript editorReplacements fs = Except.ok ⟨fs.content, true⟩) ∧
    ((∀ ru ∈ viewerReplacements, ¬ ru.1 <:+: fs.content) →
      runScript viewerReplacements fs = Except.ok ⟨fs.content, true⟩) := by
  constructor
  · intro h
    simp only [runScript, hp, hr, hw, hu]
    rw [applyAll_eq_self _ _ h]
    rfl
  · intro h
    simp only [runScript, hp, hr, hw, hu]
    rw [applyAll_eq_self _ _ h]
    rfl

theorem C7_no_match_writes_back_identical_witness :
    runScript editorReplacements (FileSys.mk true true true true "hello".data) =
      Except.ok ⟨"hello".data, true⟩ :=
  (C7_no_match_writes_back_identical (FileSys.mk true true true true "hello".data)
    rfl rfl rfl rfl).1 (by decide)

/-- C8 counterexample: a present, readable file that is both unwritable and
not valid UTF-8 makes the run abort with the encoding error, not the
file-access error, although the file is unwritable: the claimed
"file-access error if and only if missing, unreadable, or unwritable"
equivalence fails on this state. -/
theorem C8_counterexample :
    (FileSys.mk true true false false []).writable = false ∧
    runScript editorReplacements (FileSys.mk true true false false []) =
      Except.error RunError.encoding ∧
    runScript editorReplacements (FileSys.mk true true false false []) ≠
      Except.error RunError.fileAccess :=
  ⟨rfl, by decide, by decide⟩

/-- C8 (amended): failures are detected in read, decode, write order: the
run aborts with the file-access error iff the file is missing or
unreadable, or it is present, readable, valid UTF-8 and unwritable; it
aborts with the encoding error iff the file is present and readable but its
bytes are not valid UTF-8; and the success acknowledgment is printed iff
read, decode and write all succeed — every failure aborts the run with its
error and without the acknowledgment. -/
theorem C8_error_conditions :
    ∀ (R : List Rule) (fs : FileSys),
      (runScript R fs = Except.error RunError.fileAccess ↔
        (fs.present = false ∨ fs.readable = false ∨
          (fs.present = true ∧ fs.readable = true ∧ fs.validUTF8 = true ∧
            fs.writable = false))) ∧
      (runScript R fs = Except.error RunError.encoding ↔
        (fs.present = true ∧ fs.readable = true ∧ fs.validUTF8 = false)) ∧
      ((∃ o : RunOutput, runScript R fs = Except.ok o ∧ o.printedSuccess = true) ↔
        (fs.present = true ∧ fs.readable = true ∧ fs.validUTF8 = true ∧
          fs.writable = true)) := by
  intro R fs
  obtain ⟨p, rr, w, u, c⟩ := fs
  cases p <;> cases rr <;> cases w <;> cases u <;>
    simp [runScript]

/-- C9: every pattern in both scripts' rule lists contains no regex
metacharacter, so the regex-based implementation (`subst`, one `re.sub` per
rule) is extensionally equal, on every input blob, to the naive
implementation `replaceNaive` that performs plain literal-substring global
replacement with the same pairs in the same order. -/
theorem C9_regex_equals_literal :
    ((editorReplacements ++ viewerReplacements).all fun ru =>
        ru.1.all fun c => !(regexMetachars.contains c)) = true ∧
    (∀ B : List Char, applyAll editorReplacements B = applyAllNaive editorReplacements B) ∧
    (∀ B : List Char, applyAll viewerReplacements B = applyAllNaive viewerReplacements B) :=
  ⟨by decide,
    fun B => applyAll_eq_applyAllNaive editorReplacements (by decide) B,
    fun B => applyAll_eq_applyAllNaive viewerReplacements (by decide) B⟩

/-- C10: every rule of either script is exactly the insertion of the
7-character prefix (`editor-` or `viewer-`) immediately after
`className="`; consequently, for every input blob, the output keeps every
input character in order (the input is a sublist of the output), the output
length is the input length plus 7 times the total number of matches, and
the output is never shorter than the input. -/
theorem C10_insertion_shape_and_length :
    (editorReplacements.all fun ru =>
        (ru.2 == ru.1.take 11 ++ "editor-".data ++ ru.1.drop 11) &&
        (ru.1.take 11 == "className=\"".data)) = true ∧
    (viewerReplacements.all fun ru =>
        (ru.2 == ru.1.take 11 ++ "viewer-".data ++ ru.1.drop 11) &&
        (ru.1.take 11 == "className=\"".data)) = true ∧
    (∀ B : List Char,
        List.Sublist B (applyAll editorReplacements B) ∧
        (applyAll editorReplacements B).length =
          B.length + 7 * totalMatches editorReplacements B ∧
        B.length ≤ (applyAll editorReplacements B).length) ∧
    (∀ B : List Char,
        List.Sublist B (applyAll viewerReplacements B) ∧
        (applyAll viewerReplacements B).length =
          B.length + 7 * totalMatches viewerReplacements B ∧
        B.length ≤ (applyAll viewerReplacements B).length) := by
  refine ⟨by decide, by decide, fun B => ⟨?_, ?_, ?_⟩, fun B => ⟨?_, ?_, ?_⟩⟩
  · exact applyAll_sublist editorReplacements (by decide) B
  · exact applyAll_length editorReplacements (by decide) B
  · rw [applyAll_length editorReplacements (by decide) B]
    exact Nat.le_add_right _ _
  · exact applyAll_sublist viewerReplacements (by decide) B
  · exact applyAll_length viewerReplacements (by decide) B
  · rw [applyAll_length viewerReplacements (by decide) B]
    exact Nat.le_add_right _ _
